import Mathlib

/-!
Shallow embedding of the Mille-feuille backend voting core (src/main.go).

The Go program keeps two package-level maps guarded by one mutex:
  - `voteCounts : map[string]int`, pre-seeded with the three vote labels
    "あつい", "ちょうどよい", "さむい" at 0 (lines 22–26);
  - `userVotes : map[string]string`, initially empty (line 29).
`voteHandler` (lines 36–74) decodes a `(userId, vote)` pair, rejects a vote
label that is not a key of `voteCounts` without mutating anything
(lines 48–51), then under the lock: if the user had a previous vote that
differs from the new one it decrements the old label (lines 58–63),
unconditionally increments the new label (line 66) and records the user's
vote (line 67). `resultsHandler` (lines 77–90) returns `voteCounts`.

Go maps are embedded as association lists with first-match lookup and
in-place update; a Go read of a missing `int` key yields the zero value and
a write to a missing key inserts it, which `aadd`/`aset` reproduce.  The
mutex makes each handler invocation atomic, so the state machine here has
one transition per completed handler call.
-/

namespace MilleFeuille

/-- First-match lookup in an association list: the embedding of a Go map
read `v, ok := m[k]`. -/
def alookup (m : List (String × α)) (k : String) : Option α :=
  match m with
  | [] => none
  | (k', v) :: rest => if k' = k then some v else alookup rest k

/-- The embedding of Go `m[k] += d` on a `map[string]int`: a present key is
updated in place, a missing key reads as the zero value and the new entry is
inserted (as `m[k]++` / `m[k]--` do on lines 61 and 66). -/
def aadd (m : List (String × Int)) (k : String) (d : Int) : List (String × Int) :=
  match m with
  | [] => [(k, d)]
  | (k', v) :: rest => if k' = k then (k', v + d) :: rest else (k', v) :: aadd rest k d

/-- The embedding of Go `m[k] = v` on a `map[string]string`: overwrite in
place, or insert when the key is missing (line 67). -/
def aset (m : List (String × String)) (k v : String) : List (String × String) :=
  match m with
  | [] => [(k, v)]
  | (k', v') :: rest => if k' = k then (k', v) :: rest else (k', v') :: aset rest k v

/-- The key set of an embedded map. -/
def keys (m : List (String × α)) : List String := m.map Prod.fst

/-- The three fixed vote labels of the deployment (src/main.go lines 23–25). -/
def catHot : String := "あつい"

/-- Second fixed vote label. -/
def catMild : String := "ちょうどよい"

/-- Third fixed vote label. -/
def catCold : String := "さむい"

/-- The fixed category enumeration, in the order the `voteCounts` literal
lists it. -/
def catList : List String := [catHot, catMild, catCold]

/-- The shared mutable state of the program: the two package-level maps
(src/main.go lines 20–33). -/
structure VoteState where
  voteCounts : List (String × Int)
  userVotes : List (String × String)
deriving Repr, DecidableEq

/-- The state at process start: every category present at zero, no user
votes (lines 22–29). -/
def initState : VoteState :=
  { voteCounts := [(catHot, 0), (catMild, 0), (catCold, 0)], userVotes := [] }

/-- Outcome of one `voteHandler` call, as seen by the client: 200 OK, or the
400 "Invalid vote option" rejection (line 49). -/
inductive VoteResult where
  | ok
  | invalidVote
deriving Repr, DecidableEq

/-- The core of `voteHandler` (src/main.go lines 48–67), after the transport
layer has decoded `(userID, vote)`: reject a label that is not a key of
`voteCounts`, leaving the state untouched; otherwise decrement the user's
previous vote when it differs from the new one, increment the new label
unconditionally, and record the user's vote.  The mutex makes this one
atomic transition. -/
def voteHandler (s : VoteState) (userID vote : String) : VoteState × VoteResult :=
  match alookup s.voteCounts vote with
  | none => (s, .invalidVote)
  | some _ =>
    let s1 :=
      match alookup s.userVotes userID with
      | some previousVote =>
        if previousVote ≠ vote then
          { s with voteCounts := aadd s.voteCounts previousVote (-1) }
        else s
      | none => s
    let s2 := { s1 with voteCounts := aadd s1.voteCounts vote 1 }
    ({ s2 with userVotes := aset s2.userVotes userID vote }, .ok)

/-- The body of `resultsHandler` (lines 83–89): a consistent copy of the
tally. -/
def snapshot (s : VoteState) : List (String × Int) := s.voteCounts

/-- Run a sequence of vote requests through the handler, in order. -/
def run (s : VoteState) : List (String × String) → VoteState
  | [] => s
  | (u, v) :: rest => run (voteHandler s u v).1 rest

/-- States the process can be in: the initial state and everything a
sequence of completed `voteHandler` calls can produce (rejected calls leave
the state unchanged, so they are included for free). -/
inductive Reachable : VoteState → Prop where
  | init : Reachable initState
  | step : ∀ {s : VoteState} (u v : String), Reachable s →
      Reachable (voteHandler s u v).1

/-- States reachable when no accepted call repeats the caller's currently
recorded category (the regime in which the spec's derived-tally invariant
can hold). -/
inductive ReachableNoRepeat : VoteState → Prop where
  | init : ReachableNoRepeat initState
  | step : ∀ {s : VoteState} (u v : String), ReachableNoRepeat s →
      alookup s.userVotes u ≠ some v →
      ReachableNoRepeat (voteHandler s u v).1

/-- The histogram the spec derives from the User Vote Record: occurrences of
a category among the recorded votes. -/
def histCount (uv : List (String × String)) (c : String) : Int :=
  match uv with
  | [] => 0
  | (_, w) :: rest => (if w = c then 1 else 0) + histCount rest c

/-- Sum of all category counts in a tally. -/
def sumCounts (m : List (String × Int)) : Int := (m.map Prod.snd).sum

/-! ### Basic lemmas about the embedded map operations -/

theorem alookup_eq_none_iff (m : List (String × α)) (k : String) :
    alookup m k = none ↔ k ∉ keys m := by
  induction m with
  | nil => simp [alookup, keys]
  | cons p rest ih =>
    obtain ⟨k', v⟩ := p
    by_cases h : k' = k
    · subst h
      simp [alookup, keys]
    · have h2 : ¬k = k' := fun hh => h hh.symm
      simp [alookup, keys, h, h2, ih]

theorem alookup_isSome_of_mem {m : List (String × α)} {k : String}
    (h : k ∈ keys m) : ∃ v, alookup m k = some v := by
  rcases ho : alookup m k with _ | v
  · exact absurd ((alookup_eq_none_iff m k).mp ho) (by simpa using h)
  · exact ⟨v, rfl⟩

theorem mem_keys_of_alookup {m : List (String × α)} {k : String} {v : α}
    (h : alookup m k = some v) : k ∈ keys m := by
  by_contra hk
  rw [(alookup_eq_none_iff m k).mpr hk] at h
  exact Option.noConfusion h

theorem alookup_mem {m : List (String × α)} {k : String} {v : α}
    (h : alookup m k = some v) : (k, v) ∈ m := by
  induction m with
  | nil => simp [alookup] at h
  | cons p rest ih =>
    obtain ⟨k', v'⟩ := p
    by_cases hk : k' = k
    · simp [alookup, hk] at h
      simp [hk, h]
    · simp [alookup, hk] at h
      exact List.mem_cons_of_mem _ (ih h)

theorem alookup_aadd_same (m : List (String × Int)) (k : String) (d : Int) :
    alookup (aadd m k d) k = some ((alookup m k).getD 0 + d) := by
  induction m with
  | nil => simp [aadd, alookup]
  | cons p rest ih =>
    obtain ⟨k', v⟩ := p
    by_cases h : k' = k <;> simp [aadd, alookup, h, ih]

theorem alookup_aadd_ne (m : List (String × Int)) {k k' : String} (d : Int)
    (h : k' ≠ k) : alookup (aadd m k d) k' = alookup m k' := by
  have h2 : ¬k = k' := fun hh => h hh.symm
  induction m with
  | nil => simp [aadd, alookup, h2]
  | cons p rest ih =>
    obtain ⟨k'', v⟩ := p
    by_cases hk : k'' = k
    · subst hk
      simp [aadd, alookup, h2]
    · simp [aadd, alookup, hk, ih]

theorem keys_aadd_of_mem {m : List (String × Int)} {k : String} (d : Int)
    (h : k ∈ keys m) : keys (aadd m k d) = keys m := by
  induction m with
  | nil => simp [keys] at h
  | cons p rest ih =>
    obtain ⟨k', v⟩ := p
    by_cases hk : k' = k
    · simp [aadd, keys, hk]
    · have h' : k ∈ keys rest := by
        rcases (by simpa [keys] using h : k = k' ∨ k ∈ keys rest) with h1 | h1
        · exact absurd h1.symm hk
        · exact h1
      simp [aadd, keys, hk]
      simpa [keys] using ih h'

theorem alookup_aset_same (m : List (String × String)) (k v : String) :
    alookup (aset m k v) k = some v := by
  induction m with
  | nil => simp [aset, alookup]
  | cons p rest ih =>
    obtain ⟨k', v'⟩ := p
    by_cases h : k' = k <;> simp [aset, alookup, h, ih]

theorem alookup_aset_ne (m : List (String × String)) {k k' : String} (v : String)
    (h : k' ≠ k) : alookup (aset m k v) k' = alookup m k' := by
  have h2 : ¬k = k' := fun hh => h hh.symm
  induction m with
  | nil => simp [aset, alookup, h2]
  | cons p rest ih =>
    obtain ⟨k'', v'⟩ := p
    by_cases hk : k'' = k
    · subst hk
      simp [aset, alookup, h2]
    · simp [aset, alookup, hk, ih]

theorem aset_eq_of_alookup {m : List (String × String)} {k v : String}
    (h : alookup m k = some v) : aset m k v = m := by
  induction m with
  | nil => simp [alookup] at h
  | cons p rest ih =>
    obtain ⟨k', v'⟩ := p
    by_cases hk : k' = k
    · simp [alookup, hk] at h
      simp [aset, hk, h]
    · simp [alookup, hk] at h
      simp [aset, hk, ih h]

theorem aset_eq_append_of_none {m : List (String × String)} {k : String}
    (v : String) (h : alookup m k = none) : aset m k v = m ++ [(k, v)] := by
  induction m with
  | nil => simp [aset]
  | cons p rest ih =>
    obtain ⟨k', v'⟩ := p
    by_cases hk : k' = k
    · simp [alookup, hk] at h
    · simp [alookup, hk] at h
      simp [aset, hk, ih h]

theorem keys_aset_of_mem {m : List (String × String)} {k : String} (v : String)
    (h : k ∈ keys m) : keys (aset m k v) = keys m := by
  induction m with
  | nil => simp [keys] at h
  | cons p rest ih =>
    obtain ⟨k', v'⟩ := p
    by_cases hk : k' = k
    · simp [aset, keys, hk]
    · have h' : k ∈ keys rest := by
        rcases (by simpa [keys] using h : k = k' ∨ k ∈ keys rest) with h1 | h1
        · exact absurd h1.symm hk
        · exact h1
      simp [aset, keys, hk]
      simpa [keys] using ih h'

theorem mem_aset {m : List (String × String)} {k v : String} {p : String × String}
    (h : p ∈ aset m k v) : p ∈ m ∨ p = (k, v) := by
  induction m with
  | nil => simp [aset] at h; simp [h]
  | cons q rest ih =>
    obtain ⟨k', v'⟩ := q
    by_cases hk : k' = k
    · simp [aset, hk] at h
      rcases h with h | h
      · right; simpa [hk] using h
      · left; exact List.mem_cons_of_mem _ h
    · simp [aset, hk] at h
      rcases h with h | h
      · left; simp [h]
      · rcases ih h with h' | h'
        · left; exact List.mem_cons_of_mem _ h'
        · right; exact h'

theorem histCount_nonneg (uv : List (String × String)) (c : String) :
    0 ≤ histCount uv c := by
  induction uv with
  | nil => simp [histCount]
  | cons p rest ih =>
    obtain ⟨u, w⟩ := p
    by_cases h : w = c <;> simp [histCount, h] <;> omega

theorem histCount_append (uv : List (String × String)) (u v c : String) :
    histCount (uv ++ [(u, v)]) c =
      histCount uv c + (if v = c then 1 else 0) := by
  induction uv with
  | nil => simp [histCount]
  | cons p rest ih =>
    obtain ⟨u', w⟩ := p
    simp [histCount, ih]
    ring

theorem histCount_aset {uv : List (String × String)} {u p : String}
    (v c : String) (hnd : (keys uv).Nodup) (h : alookup uv u = some p) :
    histCount (aset uv u v) c =
      histCount uv c - (if p = c then 1 else 0) + (if v = c then 1 else 0) := by
  induction uv with
  | nil => simp [alookup] at h
  | cons q rest ih =>
    obtain ⟨k', w⟩ := q
    by_cases hk : k' = u
    · simp [alookup, hk] at h
      subst h
      simp [aset, hk, histCount]
      ring
    · simp [alookup, hk] at h
      simp [keys] at hnd
      simp [aset, hk, histCount, ih hnd.2 h]
      ring

/-! ### Case shapes of one handler call -/

theorem voteHandler_invalid {s : VoteState} {v : String} (u : String)
    (hv : alookup s.voteCounts v = none) :
    voteHandler s u v = (s, .invalidVote) := by
  simp [voteHandler, hv]

theorem voteHandler_first {s : VoteState} {u v : String} {nv : Int}
    (hv : alookup s.voteCounts v = some nv)
    (hu : alookup s.userVotes u = none) :
    voteHandler s u v =
      ({ voteCounts := aadd s.voteCounts v 1,
         userVotes := aset s.userVotes u v }, .ok) := by
  simp [voteHandler, hv, hu]

theorem voteHandler_same {s : VoteState} {u v : String} {nv : Int}
    (hv : alookup s.voteCounts v = some nv)
    (hu : alookup s.userVotes u = some v) :
    voteHandler s u v =
      ({ voteCounts := aadd s.voteCounts v 1,
         userVotes := aset s.userVotes u v }, .ok) := by
  simp [voteHandler, hv, hu]

theorem voteHandler_switch {s : VoteState} {u v p : String} {nv : Int}
    (hv : alookup s.voteCounts v = some nv)
    (hu : alookup s.userVotes u = some p) (hpv : p ≠ v) :
    voteHandler s u v =
      ({ voteCounts := aadd (aadd s.voteCounts p (-1)) v 1,
         userVotes := aset s.userVotes u v }, .ok) := by
  simp [voteHandler, hv, hu, hpv]

theorem voteHandler_first_counts {s : VoteState} {u v : String} {nv : Int}
    (hv : alookup s.voteCounts v = some nv)
    (hu : alookup s.userVotes u = none) :
    (voteHandler s u v).1.voteCounts = aadd s.voteCounts v 1 := by
  rw [voteHandler_first hv hu]

theorem voteHandler_first_votes {s : VoteState} {u v : String} {nv : Int}
    (hv : alookup s.voteCounts v = some nv)
    (hu : alookup s.userVotes u = none) :
    (voteHandler s u v).1.userVotes = aset s.userVotes u v := by
  rw [voteHandler_first hv hu]

theorem voteHandler_first_res {s : VoteState} {u v : String} {nv : Int}
    (hv : alookup s.voteCounts v = some nv)
    (hu : alookup s.userVotes u = none) :
    (voteHandler s u v).2 = .ok := by
  rw [voteHandler_first hv hu]

theorem voteHandler_same_counts {s : VoteState} {u v : String} {nv : Int}
    (hv : alookup s.voteCounts v = some nv)
    (hu : alookup s.userVotes u = some v) :
    (voteHandler s u v).1.voteCounts = aadd s.voteCounts v 1 := by
  rw [voteHandler_same hv hu]

theorem voteHandler_same_votes {s : VoteState} {u v : String} {nv : Int}
    (hv : alookup s.voteCounts v = some nv)
    (hu : alookup s.userVotes u = some v) :
    (voteHandler s u v).1.userVotes = aset s.userVotes u v := by
  rw [voteHandler_same hv hu]

theorem voteHandler_same_res {s : VoteState} {u v : String} {nv : Int}
    (hv : alookup s.voteCounts v = some nv)
    (hu : alookup s.userVotes u = some v) :
    (voteHandler s u v).2 = .ok := by
  rw [voteHandler_same hv hu]

theorem voteHandler_switch_counts {s : VoteState} {u v p : String} {nv : Int}
    (hv : alookup s.voteCounts v = some nv)
    (hu : alookup s.userVotes u = some p) (hpv : p ≠ v) :
    (voteHandler s u v).1.voteCounts = aadd (aadd s.voteCounts p (-1)) v 1 := by
  rw [voteHandler_switch hv hu hpv]

theorem voteHandler_switch_votes {s : VoteState} {u v p : String} {nv : Int}
    (hv : alookup s.voteCounts v = some nv)
    (hu : alookup s.userVotes u = some p) (hpv : p ≠ v) :
    (voteHandler s u v).1.userVotes = aset s.userVotes u v := by
  rw [voteHandler_switch hv hu hpv]

theorem voteHandler_switch_res {s : VoteState} {u v p : String} {nv : Int}
    (hv : alookup s.voteCounts v = some nv)
    (hu : alookup s.userVotes u = some p) (hpv : p ≠ v) :
    (voteHandler s u v).2 = .ok := by
  rw [voteHandler_switch hv hu hpv]

theorem voteHandler_invalid_state {s : VoteState} {v : String} (u : String)
    (hv : alookup s.voteCounts v = none) :
    (voteHandler s u v).1 = s := by
  rw [voteHandler_invalid u hv]

theorem voteHandler_invalid_res {s : VoteState} {v : String} (u : String)
    (hv : alookup s.voteCounts v = none) :
    (voteHandler s u v).2 = .invalidVote := by
  rw [voteHandler_invalid u hv]

/-! ### The reachability invariant -/

/-- Well-formedness the handler preserves: the tally's key set is the fixed
enumeration, user-vote keys are unique, every recorded vote is a valid
label, and every tally entry dominates the corresponding histogram count of
the record. -/
def goodState (s : VoteState) : Prop :=
  keys s.voteCounts = catList ∧
  (keys s.userVotes).Nodup ∧
  (∀ p ∈ s.userVotes, p.2 ∈ catList) ∧
  (∀ c n, alookup s.voteCounts c = some n → histCount s.userVotes c ≤ n)

theorem goodState_init : goodState initState := by
  refine ⟨rfl, by simp [initState, keys], by simp [initState], ?_⟩
  intro c n h
  have h0 : histCount initState.userVotes c = 0 := rfl
  rw [h0]
  by_cases h1 : catHot = c
  · simp [initState, alookup, h1] at h
    omega
  · by_cases h2 : catMild = c
    · simp [initState, alookup, h1, h2] at h
      omega
    · by_cases h3 : catCold = c
      · simp [initState, alookup, h1, h2, h3] at h
        omega
      · simp [initState, alookup, h1, h2, h3] at h

theorem voteHandler_good {s : VoteState} (h : goodState s) (u v : String) :
    goodState (voteHandler s u v).1 := by
  obtain ⟨hk, hnd, hval, hge⟩ := h
  rcases hv : alookup s.voteCounts v with _ | nv
  · rw [voteHandler_invalid_state u hv]
    exact ⟨hk, hnd, hval, hge⟩
  · have hvkeys : v ∈ keys s.voteCounts := mem_keys_of_alookup hv
    have hvcat : v ∈ catList := hk ▸ hvkeys
    rcases hu : alookup s.userVotes u with _ | p
    · -- first-time voter: tally bumped at v, record extended with (u, v)
      refine ⟨?_, ?_, ?_, ?_⟩
      · rw [voteHandler_first_counts hv hu, keys_aadd_of_mem 1 hvkeys]
        exact hk
      · rw [voteHandler_first_votes hv hu, aset_eq_append_of_none v hu]
        have hkeq : keys (s.userVotes ++ [(u, v)]) = keys s.userVotes ++ [u] := by
          simp [keys]
        rw [hkeq, (List.perm_append_singleton u (keys s.userVotes)).nodup_iff]
        exact List.nodup_cons.mpr ⟨(alookup_eq_none_iff _ _).mp hu, hnd⟩
      · rw [voteHandler_first_votes hv hu]
        intro q hq
        rcases mem_aset hq with hq1 | hq1
        · exact hval q hq1
        · simpa [hq1]
      · intro c n hn
        rw [voteHandler_first_counts hv hu] at hn
        rw [voteHandler_first_votes hv hu, aset_eq_append_of_none v hu,
          histCount_append]
        by_cases hc : c = v
        · rw [hc] at hn ⊢
          rw [alookup_aadd_same, hv] at hn
          have hn1 : nv + 1 = n := by simpa using hn
          have hh := hge v nv hv
          simp
          omega
        · rw [alookup_aadd_ne _ 1 hc] at hn
          have hh := hge c n hn
          have hvc : ¬v = c := fun hh2 => hc hh2.symm
          simp [hvc]
          omega
    · have hucat : p ∈ catList := hval (u, p) (alookup_mem hu)
      have hukeys : u ∈ keys s.userVotes := mem_keys_of_alookup hu
      by_cases hpv : p = v
      · -- idempotent re-vote: tally bumped at v, record rewritten in place
        rw [hpv] at hu
        have hset : aset s.userVotes u v = s.userVotes := aset_eq_of_alookup hu
        refine ⟨?_, ?_, ?_, ?_⟩
        · rw [voteHandler_same_counts hv hu, keys_aadd_of_mem 1 hvkeys]
          exact hk
        · rw [voteHandler_same_votes hv hu, hset]
          exact hnd
        · rw [voteHandler_same_votes hv hu, hset]
          exact hval
        · intro c n hn
          rw [voteHandler_same_counts hv hu] at hn
          rw [voteHandler_same_votes hv hu, hset]
          by_cases hc : c = v
          · rw [hc] at hn ⊢
            rw [alookup_aadd_same, hv] at hn
            have hn1 : nv + 1 = n := by simpa using hn
            have hh := hge v nv hv
            omega
          · rw [alookup_aadd_ne _ 1 hc] at hn
            exact hge c n hn
      · -- switch: old label decremented, new label incremented, record rewritten
        have hpkeys : p ∈ keys s.voteCounts := hk ▸ hucat
        obtain ⟨np, hp⟩ := alookup_isSome_of_mem hpkeys
        have hkeys1 : keys (aadd s.voteCounts p (-1)) = keys s.voteCounts :=
          keys_aadd_of_mem (-1) hpkeys
        have hvkeys1 : v ∈ keys (aadd s.voteCounts p (-1)) := hkeys1 ▸ hvkeys
        refine ⟨?_, ?_, ?_, ?_⟩
        · rw [voteHandler_switch_counts hv hu hpv, keys_aadd_of_mem 1 hvkeys1,
            hkeys1]
          exact hk
        · rw [voteHandler_switch_votes hv hu hpv, keys_aset_of_mem v hukeys]
          exact hnd
        · rw [voteHandler_switch_votes hv hu hpv]
          intro q hq
          rcases mem_aset hq with hq1 | hq1
          · exact hval q hq1
          · simpa [hq1]
        · intro c n hn
          rw [voteHandler_switch_counts hv hu hpv] at hn
          rw [voteHandler_switch_votes hv hu hpv, histCount_aset v c hnd hu]
          by_cases hc : c = v
          · rw [hc] at hn ⊢
            rw [alookup_aadd_same,
              alookup_aadd_ne _ (-1) (fun hh2 => hpv hh2.symm), hv] at hn
            have hn1 : nv + 1 = n := by simpa using hn
            have hh := hge v nv hv
            simp [hpv]
            omega
          · rw [alookup_aadd_ne _ 1 hc] at hn
            have hvc : ¬v = c := fun hh2 => hc hh2.symm
            by_cases hcp : c = p
            · rw [hcp] at hn ⊢
              rw [alookup_aadd_same, hp] at hn
              have hn1 : np + -1 = n := by simpa using hn
              have hh := hge p np hp
              have hvp : ¬v = p := fun hh2 => hpv hh2.symm
              simp [hvp]
              omega
            · rw [alookup_aadd_ne _ (-1) hcp] at hn
              have hh := hge c n hn
              have hpc : ¬p = c := fun hh2 => hcp hh2.symm
              simp [hvc, hpc]
              omega

theorem reachable_good {s : VoteState} (h : Reachable s) : goodState s := by
  induction h with
  | init => exact goodState_init
  | step u v _ ih => exact voteHandler_good ih u v

theorem noRepeat_reachable {s : VoteState} (h : ReachableNoRepeat s) :
    Reachable s := by
  induction h with
  | init => exact Reachable.init
  | step u v _ _ ih => exact Reachable.step u v ih

theorem catHot_ne_catMild : catHot ≠ catMild := by decide

theorem catHot_ne_catCold : catHot ≠ catCold := by decide

theorem catMild_ne_catCold : catMild ≠ catCold := by decide

/-- Under the no-same-category-repeat regime, every tally entry is exactly
the histogram count of the user-vote record. -/
theorem noRepeat_exact {s : VoteState} (h : ReachableNoRepeat s) :
    ∀ c n, alookup s.voteCounts c = some n → n = histCount s.userVotes c := by
  induction h with
  | init =>
    intro c n hn
    have h0 : histCount initState.userVotes c = 0 := rfl
    rw [h0]
    by_cases h1 : catHot = c
    · simp [initState, alookup, h1] at hn
      omega
    · by_cases h2 : catMild = c
      · simp [initState, alookup, h1, h2] at hn
        omega
      · by_cases h3 : catCold = c
        · simp [initState, alookup, h1, h2, h3] at hn
          omega
        · simp [initState, alookup, h1, h2, h3] at hn
  | @step s u v hr hne ih =>
    obtain ⟨hk, hnd, hval, hge⟩ := reachable_good (noRepeat_reachable hr)
    rcases hv : alookup s.voteCounts v with _ | nv
    · rw [voteHandler_invalid_state u hv]
      exact ih
    · rcases hu : alookup s.userVotes u with _ | p
      · intro c n hn
        rw [voteHandler_first_counts hv hu] at hn
        rw [voteHandler_first_votes hv hu, aset_eq_append_of_none v hu,
          histCount_append]
        by_cases hc : c = v
        · rw [hc] at hn ⊢
          rw [alookup_aadd_same, hv] at hn
          have hn1 : nv + 1 = n := by simpa using hn
          have hh := ih v nv hv
          simp
          omega
        · rw [alookup_aadd_ne _ 1 hc] at hn
          have hh := ih c n hn
          have hvc : ¬v = c := fun hh2 => hc hh2.symm
          simp [hvc]
          omega
      · have hpv : p ≠ v := fun hh => hne (hh ▸ hu)
        have hucat : p ∈ catList := hval (u, p) (alookup_mem hu)
        have hpkeys : p ∈ keys s.voteCounts := hk ▸ hucat
        obtain ⟨np, hp⟩ := alookup_isSome_of_mem hpkeys
        intro c n hn
        rw [voteHandler_switch_counts hv hu hpv] at hn
        rw [voteHandler_switch_votes hv hu hpv, histCount_aset v c hnd hu]
        by_cases hc : c = v
        · rw [hc] at hn ⊢
          rw [alookup_aadd_same,
            alookup_aadd_ne _ (-1) (fun hh2 => hpv hh2.symm), hv] at hn
          have hn1 : nv + 1 = n := by simpa using hn
          have hh := ih v nv hv
          simp [hpv]
          omega
        · rw [alookup_aadd_ne _ 1 hc] at hn
          have hvc : ¬v = c := fun hh2 => hc hh2.symm
          by_cases hcp : c = p
          · rw [hcp] at hn ⊢
            rw [alookup_aadd_same, hp] at hn
            have hn1 : np + -1 = n := by simpa using hn
            have hh := ih p np hp
            have hvp : ¬v = p := fun hh2 => hpv hh2.symm
            simp [hvp]
            omega
          · rw [alookup_aadd_ne _ (-1) hcp] at hn
            have hh := ih c n hn
            have hpc : ¬p = c := fun hh2 => hcp hh2.symm
            simp [hvc, hpc]
            omega

/-- A tally whose key list is the fixed enumeration is a three-entry list in
that order. -/
theorem keys_three {m : List (String × Int)} (h : keys m = catList) :
    ∃ a b c, m = [(catHot, a), (catMild, b), (catCold, c)] := by
  rcases m with _ | ⟨⟨k1, a⟩, _ | ⟨⟨k2, b⟩, _ | ⟨⟨k3, c⟩, rest⟩⟩⟩
  · simp [keys, catList] at h
  · simp [keys, catList] at h
  · simp [keys, catList] at h
  · simp [keys, catList] at h
    obtain ⟨h1, h2, h3, h4⟩ := h
    exact ⟨a, b, c, by simp [h1, h2, h3, h4]⟩

/-- When every recorded vote is a valid label, the three histogram counts
add up to the number of record entries. -/
theorem histCount_total {uv : List (String × String)}
    (h : ∀ p ∈ uv, p.2 ∈ catList) :
    histCount uv catHot + histCount uv catMild + histCount uv catCold
      = (uv.length : Int) := by
  induction uv with
  | nil => simp [histCount]
  | cons q rest ih =>
    obtain ⟨u, w⟩ := q
    have hw : w ∈ catList := h (u, w) (by simp)
    have hrest : ∀ p ∈ rest, p.2 ∈ catList := fun p hp =>
      h p (List.mem_cons_of_mem _ hp)
    have ih2 := ih hrest
    rcases (by simpa [catList] using hw : w = catHot ∨ w = catMild ∨ w = catCold)
      with h1 | h1 | h1
    · subst h1
      simp [histCount, catHot_ne_catMild, catHot_ne_catCold]
      omega
    · subst h1
      simp [histCount, Ne.symm catHot_ne_catMild, catMild_ne_catCold]
      omega
    · subst h1
      simp [histCount, Ne.symm catHot_ne_catCold, Ne.symm catMild_ne_catCold]
      omega

theorem sumCounts_three (a b c : Int) :
    sumCounts [(catHot, a), (catMild, b), (catCold, c)] = a + b + c := by
  simp [sumCounts]
  ring

/-- In a good state, the sum of the tally is determined by the three lookups. -/
theorem sumCounts_eq_length {s : VoteState} (hg : goodState s)
    (hx : ∀ c n, alookup s.voteCounts c = some n → n = histCount s.userVotes c) :
    sumCounts s.voteCounts = (s.userVotes.length : Int) := by
  obtain ⟨hk, hnd, hval, hge⟩ := hg
  obtain ⟨a, b, c, hm⟩ := keys_three hk
  have hha : alookup s.voteCounts catHot = some a := by
    rw [hm]
    simp [alookup]
  have hhb : alookup s.voteCounts catMild = some b := by
    rw [hm]
    simp [alookup, catHot_ne_catMild]
  have hhc : alookup s.voteCounts catCold = some c := by
    rw [hm]
    simp [alookup, catHot_ne_catCold, catMild_ne_catCold]
  rw [hm, sumCounts_three, hx catHot a hha, hx catMild b hhb, hx catCold c hhc]
  exact histCount_total hval

/-! ### The record after a request sequence -/

/-- Modelled from the spec (§4.1, P2): the category of the most recently
accepted CastVote of a user within a request sequence, folded left to right;
a call is accepted exactly when its label belongs to the fixed enumeration.
`acc` carries the record the user had before the sequence. -/
def lastVote (reqs : List (String × String)) (u : String) (acc : Option String) :
    Option String :=
  match reqs with
  | [] => acc
  | (u', v) :: rest =>
    lastVote rest u (if u' = u ∧ v ∈ catList then some v else acc)

/-- One handler call updates the user-vote lookup exactly when the request
names this user with a valid label. -/
theorem voteHandler_votes_lookup {s : VoteState} (hg : goodState s)
    (u' v u : String) :
    alookup (voteHandler s u' v).1.userVotes u =
      if u' = u ∧ v ∈ catList then some v else alookup s.userVotes u := by
  obtain ⟨hk, hnd, hval, hge⟩ := hg
  rcases hv : alookup s.voteCounts v with _ | nv
  · have hvc : v ∉ catList := by
      rw [← hk]
      exact (alookup_eq_none_iff _ _).mp hv
    rw [voteHandler_invalid_state u' hv]
    simp [hvc]
  · have hvc : v ∈ catList := hk ▸ mem_keys_of_alookup hv
    have hvotes : (voteHandler s u' v).1.userVotes = aset s.userVotes u' v := by
      rcases hu : alookup s.userVotes u' with _ | p
      · exact voteHandler_first_votes hv hu
      · by_cases hpv : p = v
        · rw [hpv] at hu
          exact voteHandler_same_votes hv hu
        · exact voteHandler_switch_votes hv hu hpv
    rw [hvotes]
    by_cases huu : u' = u
    · rw [huu, alookup_aset_same]
      simp [huu, hvc]
    · rw [alookup_aset_ne _ v (fun hh => huu hh.symm)]
      simp [huu]

/-- Running a request sequence from a good state folds the record lookup as
`lastVote` does. -/
theorem run_votes_lookup (reqs : List (String × String)) {s : VoteState}
    (hg : goodState s) (u : String) :
    alookup (run s reqs).userVotes u = lastVote reqs u (alookup s.userVotes u) := by
  induction reqs generalizing s with
  | nil => simp [run, lastVote]
  | cons r rest ih =>
    obtain ⟨u', v⟩ := r
    have hg2 : goodState (voteHandler s u' v).1 := voteHandler_good hg u' v
    rw [run, lastVote, ih hg2, voteHandler_votes_lookup hg u' v u]

theorem run_reachable (reqs : List (String × String)) {s : VoteState}
    (h : Reachable s) : Reachable (run s reqs) := by
  induction reqs generalizing s with
  | nil => exact h
  | cons r rest ih =>
    obtain ⟨u, v⟩ := r
    exact ih (Reachable.step u v h)

/-! ### Filtering the record by user -/

theorem filter_key_nil {m : List (String × String)} {u : String}
    (h : alookup m u = none) : m.filter (fun p => p.1 == u) = [] := by
  induction m with
  | nil => simp
  | cons q rest ih =>
    obtain ⟨k, w⟩ := q
    by_cases hk : k = u
    · simp [alookup, hk] at h
    · simp [alookup, hk] at h
      have hb : (k == u) = false := by simpa using hk
      simp [List.filter_cons, hb, ih h]

/-- With unique keys, the entries of a given user are exactly the single
looked-up one. -/
theorem filter_eq_single {m : List (String × String)} {u v : String}
    (hnd : (keys m).Nodup) (h : alookup m u = some v) :
    m.filter (fun p => p.1 == u) = [(u, v)] := by
  induction m with
  | nil => simp [alookup] at h
  | cons q rest ih =>
    obtain ⟨k, w⟩ := q
    have hkeq : keys ((k, w) :: rest) = k :: keys rest := by simp [keys]
    rw [hkeq] at hnd
    have hnd2 := List.nodup_cons.mp hnd
    by_cases hk : k = u
    · subst hk
      simp [alookup] at h
      subst h
      have hrest : alookup rest k = none :=
        (alookup_eq_none_iff _ _).mpr hnd2.1
      simp [List.filter_cons, filter_key_nil hrest]
    · simp [alookup, hk] at h
      have hb : (k == u) = false := by simpa using hk
      simp [List.filter_cons, hb, ih hnd2.2 h]

/-! ### Concrete states used by the witnesses -/

/-- The state after one accepted vote: u1 votes for the first label. -/
def stateAfterHot : VoteState := (voteHandler initState "u1" catHot).1

/-- The state after u1 votes hot, switches to cold, and u2 votes hot —
three accepted calls, none repeating the caller's current category. -/
def twoUserState : VoteState :=
  (voteHandler (voteHandler (voteHandler initState "u1" catHot).1
    "u1" catCold).1 "u2" catHot).1

/-! ### The claims -/

/-- Claim C1, as stated, is false on the code: after the two accepted calls
CastVote("u1", hot); CastVote("u1", hot), the tally entry for hot is 2 while
the histogram of the User Vote Record gives 1, and the sum of counts is 2
while only one distinct user has voted (the increment on line 66 of
src/main.go is unconditional). -/
theorem claim1_counterexample :
    (voteHandler initState "u1" catHot).2 = .ok ∧
    (voteHandler (voteHandler initState "u1" catHot).1 "u1" catHot).2 = .ok ∧
    alookup (run initState [("u1", catHot), ("u1", catHot)]).voteCounts catHot
      = some 2 ∧
    histCount (run initState [("u1", catHot), ("u1", catHot)]).userVotes catHot
      = 1 ∧
    sumCounts (run initState [("u1", catHot), ("u1", catHot)]).voteCounts = 2 ∧
    (run initState [("u1", catHot), ("u1", catHot)]).userVotes.length = 1 := by
  decide

/-- Claim C1, amended: for every sequence of accepted CastVote calls in
which no call repeats the caller's currently recorded category, the Vote
Tally equals the histogram derived from the User Vote Record, and the sum
of all category counts equals the number of distinct users that have cast a
valid vote. -/
theorem claim1_tally_matches_histogram (s : VoteState)
    (h : ReachableNoRepeat s) :
    (∀ c n, alookup s.voteCounts c = some n → n = histCount s.userVotes c) ∧
    sumCounts s.voteCounts = (s.userVotes.length : Int) := by
  have hx := noRepeat_exact h
  exact ⟨hx, sumCounts_eq_length (reachable_good (noRepeat_reachable h)) hx⟩

/-- Witness for C1's amended theorem at a concrete three-step state. -/
theorem claim1_witness :
    (∀ c n, alookup twoUserState.voteCounts c = some n →
      n = histCount twoUserState.userVotes c) ∧
    sumCounts twoUserState.voteCounts = (twoUserState.userVotes.length : Int) :=
  claim1_tally_matches_histogram twoUserState
    (.step "u2" catHot
      (.step "u1" catCold
        (.step "u1" catHot .init (by decide)) (by decide)) (by decide))

/-- Claim C2: when the user's current record is A, voting A again is
accepted, increments Tally[A] by 1 (the line-66 increment is unconditional),
and leaves the User Vote Record unchanged. -/
theorem claim2_repeat_vote_increments (s : VoteState) (u A : String) (n : Int)
    (hu : alookup s.userVotes u = some A)
    (hv : alookup s.voteCounts A = some n) :
    (voteHandler s u A).2 = .ok ∧
    alookup (voteHandler s u A).1.voteCounts A = some (n + 1) ∧
    (voteHandler s u A).1.userVotes = s.userVotes := by
  refine ⟨voteHandler_same_res hv hu, ?_, ?_⟩
  · rw [voteHandler_same_counts hv hu, alookup_aadd_same, hv]
    simp
  · rw [voteHandler_same_votes hv hu, aset_eq_of_alookup hu]

/-- Witness for C2: u1 re-votes hot after voting hot; the count goes from 1
to 2 and the record is untouched. -/
theorem claim2_witness :
    (alookup stateAfterHot.userVotes "u1" = some catHot ∧
     alookup stateAfterHot.voteCounts catHot = some 1) ∧
    ((voteHandler stateAfterHot "u1" catHot).2 = .ok ∧
     alookup (voteHandler stateAfterHot "u1" catHot).1.voteCounts catHot
       = some (1 + 1) ∧
     (voteHandler stateAfterHot "u1" catHot).1.userVotes
       = stateAfterHot.userVotes) :=
  ⟨⟨by decide, by decide⟩,
    claim2_repeat_vote_increments stateAfterHot "u1" catHot 1
      (by decide) (by decide)⟩

/-- Claim C3: in every reachable state, a CastVote call fails with the
invalid-category rejection exactly when its label is outside the fixed
enumeration; a rejected call leaves the whole state unchanged, and a valid
label always succeeds, prior record or not. -/
theorem claim3_rejection_iff_invalid (s : VoteState) (h : Reachable s)
    (u v : String) :
    ((voteHandler s u v).2 = .invalidVote ↔ v ∉ catList) ∧
    (v ∉ catList → (voteHandler s u v).1 = s) ∧
    (v ∈ catList → (voteHandler s u v).2 = .ok) := by
  obtain ⟨hk, hnd, hval, hge⟩ := reachable_good h
  have hmem : v ∈ catList ↔ v ∈ keys s.voteCounts := by rw [hk]
  by_cases hv : v ∈ catList
  · obtain ⟨nv, hnv⟩ := alookup_isSome_of_mem (hmem.mp hv)
    have hok : (voteHandler s u v).2 = .ok := by
      rcases hu : alookup s.userVotes u with _ | p
      · exact voteHandler_first_res hnv hu
      · by_cases hpv : p = v
        · rw [hpv] at hu
          exact voteHandler_same_res hnv hu
        · exact voteHandler_switch_res hnv hu hpv
    refine ⟨⟨?_, fun hnv2 => absurd hv hnv2⟩, fun hnv2 => absurd hv hnv2,
      fun _ => hok⟩
    intro hbad
    rw [hok] at hbad
    exact VoteResult.noConfusion hbad
  · have hnone : alookup s.voteCounts v = none :=
      (alookup_eq_none_iff _ _).mpr (fun hmem2 => hv (hmem.mpr hmem2))
    refine ⟨?_, fun _ => voteHandler_invalid_state u hnone,
      fun hv2 => absurd hv2 hv⟩
    simp [voteHandler_invalid_res u hnone, hv]

/-- Witness for C3: an unknown label is rejected at the initial state and
mutates nothing. -/
theorem claim3_witness :
    ((voteHandler initState "u9" "hot").2 = .invalidVote ↔ "hot" ∉ catList) ∧
    (voteHandler initState "u9" "hot").1 = initState := by
  have h := claim3_rejection_iff_invalid initState Reachable.init "u9" "hot"
  exact ⟨h.1, h.2.1 (by decide)⟩

/-- Claim C4: when the user's current record is A and B is a distinct valid
category, CastVote(user, B) is accepted, Tally[A] drops by exactly 1,
Tally[B] rises by exactly 1, and every other category is unchanged. -/
theorem claim4_switch_moves_one_vote (s : VoteState) (u A B : String)
    (a b : Int) (hu : alookup s.userVotes u = some A) (hab : A ≠ B)
    (ha : alookup s.voteCounts A = some a)
    (hb : alookup s.voteCounts B = some b) :
    (voteHandler s u B).2 = .ok ∧
    alookup (voteHandler s u B).1.voteCounts A = some (a - 1) ∧
    alookup (voteHandler s u B).1.voteCounts B = some (b + 1) ∧
    ∀ c, c ≠ A → c ≠ B →
      alookup (voteHandler s u B).1.voteCounts c = alookup s.voteCounts c := by
  have hcounts := voteHandler_switch_counts hb hu hab
  refine ⟨voteHandler_switch_res hb hu hab, ?_, ?_, ?_⟩
  · rw [hcounts, alookup_aadd_ne _ 1 hab, alookup_aadd_same, ha]
    simp only [Option.getD_some, Option.some.injEq]
    omega
  · rw [hcounts, alookup_aadd_same,
      alookup_aadd_ne _ (-1) (fun hh => hab hh.symm), hb]
    simp
  · intro c hca hcb
    rw [hcounts, alookup_aadd_ne _ 1 hcb, alookup_aadd_ne _ (-1) hca]

/-- Witness for C4: u1 switches from hot to cold; hot 1→0, cold 0→1, mild
untouched. -/
theorem claim4_witness :
    (alookup stateAfterHot.userVotes "u1" = some catHot ∧
     alookup stateAfterHot.voteCounts catHot = some 1 ∧
     alookup stateAfterHot.voteCounts catCold = some 0) ∧
    ((voteHandler stateAfterHot "u1" catCold).2 = .ok ∧
     alookup (voteHandler stateAfterHot "u1" catCold).1.voteCounts catHot
       = some (1 - 1) ∧
     alookup (voteHandler stateAfterHot "u1" catCold).1.voteCounts catCold
       = some (0 + 1) ∧
     ∀ c, c ≠ catHot → c ≠ catCold →
       alookup (voteHandler stateAfterHot "u1" catCold).1.voteCounts c
         = alookup stateAfterHot.voteCounts c) :=
  ⟨⟨by decide, by decide, by decide⟩,
    claim4_switch_moves_one_vote stateAfterHot "u1" catHot catCold 1 0
      (by decide) (by decide) (by decide) (by decide)⟩

/-- Claim C5: a user with no record voting a valid category C is accepted,
Tally[C] rises by exactly 1, the record entry is created, and no other
category's count changes. -/
theorem claim5_first_vote (s : VoteState) (u C : String) (n : Int)
    (hu : alookup s.userVotes u = none)
    (hv : alookup s.voteCounts C = some n) :
    (voteHandler s u C).2 = .ok ∧
    alookup (voteHandler s u C).1.voteCounts C = some (n + 1) ∧
    alookup (voteHandler s u C).1.userVotes u = some C ∧
    ∀ c, c ≠ C →
      alookup (voteHandler s u C).1.voteCounts c = alookup s.voteCounts c := by
  refine ⟨voteHandler_first_res hv hu, ?_, ?_, ?_⟩
  · rw [voteHandler_first_counts hv hu, alookup_aadd_same, hv]
    simp
  · rw [voteHandler_first_votes hv hu, alookup_aset_same]
  · intro c hc
    rw [voteHandler_first_counts hv hu, alookup_aadd_ne _ 1 hc]

/-- Witness for C5: u1's very first vote for hot. -/
theorem claim5_witness :
    (alookup initState.userVotes "u1" = none ∧
     alookup initState.voteCounts catHot = some 0) ∧
    ((voteHandler initState "u1" catHot).2 = .ok ∧
     alookup (voteHandler initState "u1" catHot).1.voteCounts catHot
       = some (0 + 1) ∧
     alookup (voteHandler initState "u1" catHot).1.userVotes "u1"
       = some catHot ∧
     ∀ c, c ≠ catHot →
       alookup (voteHandler initState "u1" catHot).1.voteCounts c
         = alookup initState.voteCounts c) :=
  ⟨⟨by decide, by decide⟩,
    claim5_first_vote initState "u1" catHot 0 (by decide) (by decide)⟩

/-- Claim C6: in every reachable state, every category count visible in a
snapshot is non-negative. -/
theorem claim6_tally_nonneg (s : VoteState) (h : Reachable s) :
    ∀ c n, alookup (snapshot s) c = some n → 0 ≤ n := by
  obtain ⟨hk, hnd, hval, hge⟩ := reachable_good h
  intro c n hn
  have h1 := hge c n hn
  have h2 := histCount_nonneg s.userVotes c
  omega

/-- Witness for C6 at the state reached by one accepted vote. -/
theorem claim6_witness : (0 : Int) ≤ 1 :=
  claim6_tally_nonneg stateAfterHot
    (Reachable.step "u1" catHot Reachable.init) catHot 1 (by decide)

/-- Claim C7: after any request sequence whose accepted calls include at
least one by a given user, the User Vote Record holds exactly one entry for
that user, whose category is that of the user's most recently accepted
call. -/
theorem claim7_single_current_vote (reqs : List (String × String))
    (u v : String) (h : lastVote reqs u none = some v) :
    alookup (run initState reqs).userVotes u = some v ∧
    (run initState reqs).userVotes.filter (fun p => p.1 == u) = [(u, v)] := by
  have hr : Reachable (run initState reqs) := run_reachable reqs Reachable.init
  obtain ⟨hk, hnd, hval, hge⟩ := reachable_good hr
  have hl := run_votes_lookup reqs goodState_init u
  rw [show alookup initState.userVotes u = (none : Option String) from rfl] at hl
  exact ⟨hl.trans h, filter_eq_single hnd (hl.trans h)⟩

/-- Witness for C7: u1 votes hot then cold; the record holds exactly the
cold entry. -/
theorem claim7_witness :
    alookup (run initState [("u1", catHot), ("u1", catCold)]).userVotes "u1"
      = some catCold ∧
    (run initState [("u1", catHot), ("u1", catCold)]).userVotes.filter
      (fun p => p.1 == "u1") = [("u1", catCold)] :=
  claim7_single_current_vote [("u1", catHot), ("u1", catCold)] "u1" catCold
    (by decide)

/-- Claim C8: the spec's concrete scenario, with Hot = "あつい",
Mild = "ちょうどよい", Cold = "さむい": the four snapshots after
u1→Hot, u1→Cold, u1→Cold again, u2→Hot are {1,0,0}, {0,0,1}, {0,0,2},
{1,0,2}. -/
theorem claim8_scenario :
    snapshot (run initState [("u1", catHot)]) =
      [(catHot, 1), (catMild, 0), (catCold, 0)] ∧
    snapshot (run initState [("u1", catHot), ("u1", catCold)]) =
      [(catHot, 0), (catMild, 0), (catCold, 1)] ∧
    snapshot (run initState [("u1", catHot), ("u1", catCold), ("u1", catCold)]) =
      [(catHot, 0), (catMild, 0), (catCold, 2)] ∧
    snapshot (run initState
        [("u1", catHot), ("u1", catCold), ("u1", catCold), ("u2", catHot)]) =
      [(catHot, 1), (catMild, 0), (catCold, 2)] := by
  decide

/-- Claim C9: the tally's key set starts as exactly the three fixed
categories, each at 0, and stays that key set in every reachable state
(snapshots read the tally without mutating, so they cannot change it
either). -/
theorem claim9_key_set_invariant :
    keys initState.voteCounts = catList ∧
    (∀ c ∈ catList, alookup initState.voteCounts c = some 0) ∧
    ∀ s, Reachable s → keys (snapshot s) = catList := by
  refine ⟨by decide, by decide, fun s hs => (reachable_good hs).1⟩

/-- Witness for C9 at the state reached by one accepted vote. -/
theorem claim9_witness : keys (snapshot stateAfterHot) = catList :=
  claim9_key_set_invariant.2.2 stateAfterHot
    (Reachable.step "u1" catHot Reachable.init)

/-- Claim C10: the handler never validates the userID — any string,
including the empty one, paired with a valid category is accepted,
increments that category, and creates or overwrites the record entry keyed
by that exact string. -/
theorem claim10_no_userid_validation (s : VoteState) (u v : String) (n : Int)
    (hv : alookup s.voteCounts v = some n) :
    (voteHandler s u v).2 = .ok ∧
    alookup (voteHandler s u v).1.voteCounts v = some (n + 1) ∧
    alookup (voteHandler s u v).1.userVotes u = some v := by
  rcases hu : alookup s.userVotes u with _ | p
  · refine ⟨voteHandler_first_res hv hu, ?_, ?_⟩
    · rw [voteHandler_first_counts hv hu, alookup_aadd_same, hv]
      simp
    · rw [voteHandler_first_votes hv hu, alookup_aset_same]
  · by_cases hpv : p = v
    · rw [hpv] at hu
      refine ⟨voteHandler_same_res hv hu, ?_, ?_⟩
      · rw [voteHandler_same_counts hv hu, alookup_aadd_same, hv]
        simp
      · rw [voteHandler_same_votes hv hu, alookup_aset_same]
    · refine ⟨voteHandler_switch_res hv hu hpv, ?_, ?_⟩
      · rw [voteHandler_switch_counts hv hu hpv, alookup_aadd_same,
          alookup_aadd_ne _ (-1) (fun hh => hpv hh.symm), hv]
        simp
      · rw [voteHandler_switch_votes hv hu hpv, alookup_aset_same]

/-- Witness for C10: the empty userID votes hot from the initial state and
is accepted, with a record entry keyed by the empty string. -/
theorem claim10_witness :
    (voteHandler initState "" catHot).2 = .ok ∧
    alookup (voteHandler initState "" catHot).1.voteCounts catHot
      = some (0 + 1) ∧
    alookup (voteHandler initState "" catHot).1.userVotes "" = some catHot :=
  claim10_no_userid_validation initState "" catHot 0 (by decide)

end MilleFeuille
